import Mathlib

/-!
# Verification of the lecture-timestamp discovery tool

A shallow embedding, in Lean 4, of the timestamp-discovery engine of the
repository (files `app.py`, `find_text_in_video.py`, `chapter_manager.py`,
`lecture_parser.py`), together with theorems settling the frozen claims
about its specification.

Modelling conventions:
* Python floats are modelled as `ℚ` (all claims concern order/identity
  properties of `+`, `-`, `max`, `*`, `/` on values where IEEE doubles and
  rationals agree; no rounding-sensitive property is claimed).
* Python `int()` truncation toward zero is `pyInt`.
* The OCR engine, the video decoder and the interactive console are
  external effects; they enter the model as explicit inputs (an OCR oracle,
  the decoder's byte stream, an event list that may carry a user
  interrupt).  A Python exception escaping a modelled function is `none`.
-/

namespace LectureStamper

/-! ## Byte/char list utilities (Python `in` and `bytes.find`) -/

/-- `hasPrefixList needle hay` : does `hay` start with `needle`?
(Structural model of Python's prefix comparison used by `in`/`find`.) -/
def hasPrefixList {α : Type} [DecidableEq α] : List α → List α → Bool
  | [], _ => true
  | _ :: _, [] => false
  | a :: as, b :: bs => decide (a = b) && hasPrefixList as bs

/-- `subListContains hay needle` : Python's `needle in hay` on sequences. -/
def subListContains {α : Type} [DecidableEq α] : List α → List α → Bool
  | [], needle => hasPrefixList needle []
  | hay@(_ :: t), needle => hasPrefixList needle hay || subListContains t needle

/-- Python `needle in hay` on strings (`find_text_in_video.py:178`,
`target_text in text`). -/
def strContains (hay needle : String) : Bool :=
  subListContains hay.toList needle.toList

/-- Python `str.lower()`: character-wise lower-casing (the ASCII titles the
tool compares are unaffected by the Unicode edge cases where Python's
`.lower()` is not character-wise). -/
def pyLower (s : String) : String :=
  ⟨s.data.map Char.toLower⟩

/-- `findSub needle hay` : Python `hay.find(needle)` — index of the leftmost
occurrence, `none` when absent (`find_text_in_video.py:158,162`). -/
def findSub {α : Type} [DecidableEq α] (needle : List α) : List α → Option ℕ
  | [] => if needle.isEmpty then some 0 else none
  | hay@(_ :: t) =>
      if hasPrefixList needle hay then some 0
      else (findSub needle t).map (· + 1)

/-- Python `int()` : truncation toward zero (`ℚ` is stored reduced, so
truncated division of numerator by denominator is exact truncation). -/
def pyInt (q : ℚ) : ℤ := Int.tdiv q.num (q.den : ℤ)

theorem pyInt_intCast (n : ℤ) : pyInt (n : ℚ) = n := by
  simp [pyInt, Rat.num_intCast, Rat.den_intCast, Int.tdiv_one]

theorem pyInt_natCast (n : ℕ) : pyInt (n : ℚ) = n := by
  rw [show ((n : ℚ)) = ((n : ℤ) : ℚ) by push_cast; ring, pyInt_intCast]

theorem pyInt_eq_intCast {q : ℚ} {n : ℤ} (h : q = (n : ℚ)) : pyInt q = n := by
  rw [h, pyInt_intCast]

/-! ## SearchWindow resolution (`find_text_in_video.py:113-123`)

```python
half_duration = duration / 2
search_start = max(0, start_time - half_duration)
search_duration = duration
if search_start == 0 and start_time - half_duration < 0:
    lost_time = abs(start_time - half_duration)
    search_duration = duration + lost_time
```
The scanned range handed to the decoder is
`[search_start, search_start + search_duration]`. -/

/-- Resolved search window: `(search_start, search_duration)`. -/
def searchWindow (startTime duration : ℚ) : ℚ × ℚ :=
  let half := duration / 2
  let searchStart := max 0 (startTime - half)
  let searchDuration :=
    if searchStart = 0 ∧ startTime - half < 0 then duration + |startTime - half|
    else duration
  (searchStart, searchDuration)

/-! ## Crop validation and image normalization

`app.py:98-107` and `find_text_in_video.py:103-111` validate only the
*percentages* (each in `[0,100]`, `left < right`, `top < bottom`) before any
frame is decoded.  `preprocess_image` (`find_text_in_video.py:43-71`)
resolves the percentages against the frame's pixel dimensions with `int()`
truncation, crops, converts to grayscale, enhances contrast, sharpens and
resizes to exactly twice the cropped size.  Grayscale/contrast/sharpen
preserve dimensions; the contrast enhancer divides by the pixel count and
the resize demands positive target sizes, so a zero-pixel crop raises
(modelled as `none`); otherwise the output dimensions are twice the
resolved crop box. -/

/-- The up-front crop validation actually performed (`app.py:100-107`,
`find_text_in_video.py:104-111`): percentage-level checks only. -/
def validCropArea (l t r b : ℚ) : Bool :=
  decide (0 ≤ l) && decide (l ≤ 100) && decide (0 ≤ t) && decide (t ≤ 100) &&
  decide (0 ≤ r) && decide (r ≤ 100) && decide (0 ≤ b) && decide (b ≤ 100) &&
  decide (l < r) && decide (t < b)

/-- Output dimensions of `preprocess_image` on a `W×H` frame, `none` when
the pipeline raises (degenerate resolved crop box). -/
def preprocessDims (W H : ℕ) (cropArea : Option (ℚ × ℚ × ℚ × ℚ)) :
    Option (ℕ × ℕ) :=
  let wh : ℤ × ℤ :=
    match cropArea with
    | none => ((W : ℤ), (H : ℤ))
    | some (l, t, r, b) =>
        (pyInt ((W : ℚ) * r / 100) - pyInt ((W : ℚ) * l / 100),
         pyInt ((H : ℚ) * b / 100) - pyInt ((H : ℚ) * t / 100))
  if wh.1 ≤ 0 ∨ wh.2 ≤ 0 then none
  else some (2 * wh.1.toNat, 2 * wh.2.toNat)

/-! ## PNG stream extraction (`find_text_in_video.py:146-167`)

```python
while True:
    start_idx = data.find(png_signature)
    if start_idx == -1: break
    next_idx = data.find(png_signature, start_idx + 8)
    if next_idx == -1: break
    png_data = data[start_idx:next_idx]
    data = data[next_idx:]
    ...process png_data...
```
The chunked outer read loop only feeds this inner loop more data; the
sequence of `png_data` values emitted over the whole run is determined by
the full concatenated byte stream, which is what `extractFrames` takes. -/

/-- The 8-byte PNG signature (`find_text_in_video.py:148`). -/
def pngSignature : List ℕ := [137, 80, 78, 71, 13, 10, 26, 10]

/-- One inner-loop pass, structurally recursive on a fuel bound.  Each pass
consumes at least 8 bytes of `data` (`next_idx ≥ start_idx + 8`), so
`data.length` passes always suffice and the fuel never runs out. -/
def extractFramesAux : ℕ → List ℕ → List (List ℕ)
  | 0, _ => []
  | fuel + 1, data =>
      match findSub pngSignature data with
      | none => []
      | some s =>
          match findSub pngSignature (data.drop (s + 8)) with
          | none => []
          | some k =>
              let n := s + 8 + k
              (data.drop s).take (n - s) :: extractFramesAux fuel (data.drop n)

/-- All complete PNG images emitted by the inner parsing loop, in order.
The image between the last signature and end-of-stream is never emitted:
emission requires finding the *next* signature first. -/
def extractFrames (data : List ℕ) : List (List ℕ) :=
  extractFramesAux data.length data

/-! ## The frame-scanning loop (`find_text_in_video.py:145-234`)

Per extracted PNG the code runs (inside `try`):
```python
image = Image.open(...); processed = preprocess_image(...)
text = pytesseract.image_to_string(processed).lower()
timestamp = search_start + (frame_num / frame_rate)
if target_text in text:
    process.terminate()
    return timestamp, elapsed, frame_filename
frame_num += 1
except Exception: log; continue          # frame_num NOT incremented
```
`KeyboardInterrupt` is caught *outside* the loop: the subprocess is
terminated and awaited, then control falls through to the common
`return None, elapsed, None` — the same value an exhausted scan returns.

The OCR call is an external effect: a frame either raises (`err`) or
yields recognized text (`ok text`).  An asynchronous user interrupt is an
`interrupt` event in the consumed stream. -/

/-- Outcome of opening + OCR-ing one extracted PNG. -/
inductive FrameResult where
  | err
  | ok (text : String)
  deriving Repr, DecidableEq

/-- One step of the scanning loop's input: a decoded frame, or a user
interrupt arriving at that point. -/
inductive ScanEvent where
  | frame (r : FrameResult)
  | interrupt
  deriving Repr, DecidableEq

/-- Observable outcome of `find_text_in_video`'s scanning phase:
the returned timestamp (`none` = the "not found" return) and whether
`process.terminate()` was called on the decoder. -/
structure ScanResult where
  timestamp : Option ℚ
  terminated : Bool
  deriving Repr, DecidableEq

/-- Does one frame result match the target (`target_text in text` after
both sides are lower-cased)?  OCR errors never match. -/
def frameMatches (target : String) : FrameResult → Bool
  | .err => false
  | .ok text => strContains (pyLower text) (pyLower target)

/-- The scanning loop; `n` is the running `frame_num`. -/
def scanLoop (searchStart rate : ℚ) (target : String) :
    List ScanEvent → ℕ → ScanResult
  | [], _ => ⟨none, false⟩
  | .interrupt :: _, _ => ⟨none, true⟩
  | .frame .err :: rest, n => scanLoop searchStart rate target rest n
  | .frame (.ok text) :: rest, n =>
      if strContains (pyLower text) (pyLower target) then
        ⟨some (searchStart + (n : ℚ) / rate), true⟩
      else scanLoop searchStart rate target rest (n + 1)

/-- Number of successfully processed, non-matching frames consumed before
the first matching frame (`none` when no match is reached).  Errored
frames are skipped without being counted — exactly the frames for which
the source skips `frame_num += 1`. -/
def processedCountToMatch (target : String) : List ScanEvent → Option ℕ
  | [] => none
  | .interrupt :: _ => none
  | .frame .err :: rest => processedCountToMatch target rest
  | .frame (.ok text) :: rest =>
      if strContains (pyLower text) (pyLower target) then some 0
      else (processedCountToMatch target rest).map (· + 1)

/-- `find_text_in_video`'s returned timestamp as a function of the raw
decoder byte stream and an OCR oracle (no interrupt arriving). -/
def findTextInStream (searchStart rate : ℚ) (target : String)
    (ocr : List ℕ → FrameResult) (data : List ℕ) : Option ℚ :=
  (scanLoop searchStart rate target
    ((extractFrames data).map fun png => ScanEvent.frame (ocr png)) 0).timestamp

/-! ## The Schedule Walker (`app.py:40-152`, `find_lecture_timestamps`)

```python
timestamps = []; last_end_time = 0; last_lecture_idx = -1
for i, lecture in enumerate(lectures):
    search_start = last_end_time
    start_time, _, _ = find_text_in_video(video, search_start, window, text, ...)
    if start_time is None:
        start_time = last_end_time; lecture.trovato = False
    else:
        lecture.trovato = True
    if last_lecture_idx >= 0:
        timestamps[last_lecture_idx] = (timestamps[last_lecture_idx][0], start_time)
    end_time = start_time + (lecture.duration * 60)
    timestamps.append((start_time, end_time))
    last_end_time = end_time
    last_lecture_idx = i
```
`find_text_in_video` (with the per-lecture derived search text and window,
both functions of the index alone) is abstracted as an oracle
`search : ℕ → ℚ → Option ℚ` from the lecture index and the invocation's
`search_start` to the found timestamp. -/

/-- The schedule fields of one lecture the walker reads
(`lecture_parser.py:31-41`; `trovato` is tracked separately as the
walker's output). -/
structure Lecture where
  type : String
  title : String
  duration : ℚ
  deriving Repr, DecidableEq

/-- Loop state of `find_lecture_timestamps`; `found` collects the
`lecture.trovato` flags in lecture order. -/
structure WalkState where
  timestamps : List (ℚ × ℚ)
  found : List Bool
  lastEnd : ℚ
  lastIdx : ℤ
  deriving Repr, DecidableEq

/-- State before the first iteration. -/
def walkInit : WalkState := ⟨[], [], 0, -1⟩

/-- One iteration of the walker's loop for lecture index `i`. -/
def walkStep (search : ℕ → ℚ → Option ℚ) (i : ℕ) (lec : Lecture)
    (st : WalkState) : WalkState :=
  let searchStart := st.lastEnd
  let res : ℚ × Bool :=
    match search i searchStart with
    | none => (st.lastEnd, false)
    | some t => (t, true)
  let startTime := res.1
  let ts :=
    if 0 ≤ st.lastIdx then
      st.timestamps.set st.lastIdx.toNat
        ((st.timestamps.getD st.lastIdx.toNat (0, 0)).1, startTime)
    else st.timestamps
  let endTime := startTime + lec.duration * 60
  { timestamps := ts ++ [(startTime, endTime)]
    found := st.found ++ [res.2]
    lastEnd := endTime
    lastIdx := (i : ℤ) }

/-- The walker's loop over the remaining lectures, `i` the index of the
next one. -/
def walkAux (search : ℕ → ℚ → Option ℚ) : List Lecture → ℕ → WalkState → WalkState
  | [], _, st => st
  | lec :: rest, i, st => walkAux search rest (i + 1) (walkStep search i lec st)

/-- `find_lecture_timestamps` over the whole lecture list. -/
def findLectureTimestamps (search : ℕ → ℚ → Option ℚ)
    (lectures : List Lecture) : WalkState :=
  walkAux search lectures 0 walkInit

/-! ## Chapter metadata export (`chapter_manager.py:8-63`, `app.py:13-38`)

`add_video_chapters` stores, per found lecture, `chapter_start_time` in
*seconds* and `chapter_end_time` already converted with
`int(end * 1000)` (milliseconds).  `export_chapters_metadata` then emits
```python
start = int(s.chapter_start_time * 1000)
if i < len(chapters) - 1:
    end = int(chapters[i].chapter_end_time)
else:
    if video_duration is None:
        end = int(video_duration * 1000)       # TypeError: None * 1000
    else:
        end = int(s.chapter_end_time)
```
The probed container duration is `videoDuration` (seconds, `none` when
ffprobe failed).  A raised exception is modelled as `none`. -/

/-- One session as seen by `export_chapters_metadata`. -/
structure Session where
  title : String
  chapter : Bool
  chapter_start_time : Option ℚ
  chapter_end_time : Option ℚ
  deriving Repr, DecidableEq

/-- Title cleanup: embedded line breaks collapsed to spaces
(`chapter_manager.py:49`; both replaced patterns are single characters,
so the two substring replacements are a character-wise map). -/
def pyTitle (t : String) : String :=
  ⟨t.data.map fun c => if c = '\n' ∨ c = '\r' then ' ' else c⟩

/-- Left-to-right sequencing of a list of fallible results: the Python
loop stops at the first raised exception. -/
def seqOptions {α : Type} : List (Option α) → Option (List α)
  | [] => some []
  | none :: _ => none
  | some a :: rest => (seqOptions rest).map (a :: ·)

/-- The `[CHAPTER]` record `(START, END, title)` for the session at
position `i` of the `chapters` list (length `n`), `none` when the
loop body raises. -/
def chapterRecord (n : ℕ) (videoDuration : Option ℚ) (i : ℕ) (s : Session) :
    Option (ℤ × ℤ × String) :=
  let start := pyInt (s.chapter_start_time.getD 0 * 1000)
  let endMs : Option ℤ :=
    if i < n - 1 then some (pyInt (s.chapter_end_time.getD 0))
    else
      match videoDuration with
      | none => none
      | some _ => some (pyInt (s.chapter_end_time.getD 0))
  endMs.map fun e => (start, e, pyTitle s.title)

/-- The `[CHAPTER]` records written by `export_chapters_metadata`, `none`
when it raises (an empty `chapters` list returns without writing any
record). -/
def exportChapters (sessions : List Session) (videoDuration : Option ℚ) :
    Option (List (ℤ × ℤ × String)) :=
  let chapters := sessions.filter fun s =>
    s.chapter && s.chapter_start_time.isSome && s.chapter_end_time.isSome
  seqOptions (chapters.enum.map fun p =>
    chapterRecord chapters.length videoDuration p.1 p.2)

/-! ## Interactive manual-timestamp fallback (`app.py:266-293`)

For a not-found lecture `i`, a valid `HH:MM:SS` answer executes
```python
hours, minutes, seconds = map(float, parts)
timestamp = hours * 3600 + minutes * 60 + seconds
timestamps[i] = (timestamp, timestamp + (lecture.duration * 60))
lecture.trovato = True
``` -/

/-- Effect of one accepted manual timestamp `h:m:s` for lecture `i` on the
timestamp table and the found flags. -/
def applyManualTimestamp (timestamps : List (ℚ × ℚ)) (found : List Bool)
    (duration : ℚ) (i : ℕ) (h m s : ℚ) : List (ℚ × ℚ) × List Bool :=
  let timestamp := h * 3600 + m * 60 + s
  (timestamps.set i (timestamp, timestamp + duration * 60),
   found.set i true)

/-! ## Generic list helpers -/

theorem getD_append_left {α : Type} (l1 l2 : List α) (j : ℕ) (d : α)
    (h : j < l1.length) : (l1 ++ l2).getD j d = l1.getD j d := by
  induction l1 generalizing j with
  | nil => simp at h
  | cons a t ih =>
      cases j with
      | zero => rfl
      | succ j => simpa [List.getD] using ih j (by simpa using h)

theorem getD_append_length {α : Type} (l1 l2 : List α) (x : α) (d : α)
    (h : l2 = x :: []) : (l1 ++ l2).getD l1.length d = x := by
  induction l1 with
  | nil => simp [h, List.getD]
  | cons a t ih => simpa [List.getD] using ih

theorem getD_set_ne {α : Type} (l : List α) (i j : ℕ) (a : α) (d : α)
    (h : i ≠ j) : (l.set i a).getD j d = l.getD j d := by
  induction l generalizing i j with
  | nil => simp
  | cons b t ih =>
      cases i with
      | zero =>
          cases j with
          | zero => exact absurd rfl h
          | succ j => rfl
      | succ i =>
          cases j with
          | zero => rfl
          | succ j => simpa [List.getD] using ih i j (fun he => h (by omega))

theorem getD_set_self {α : Type} (l : List α) (i : ℕ) (a : α) (d : α)
    (h : i < l.length) : (l.set i a).getD i d = a := by
  induction l generalizing i with
  | nil => simp at h
  | cons b t ih =>
      cases i with
      | zero => rfl
      | succ i => simpa [List.getD] using ih i (by simpa using h)

theorem getElem?_set_self {α : Type} (l : List α) (i : ℕ) (a : α)
    (h : i < l.length) : (l.set i a)[i]? = some a := by
  induction l generalizing i with
  | nil => simp at h
  | cons b t ih =>
      cases i with
      | zero => simp
      | succ i => simpa using ih i (by simpa using h)

theorem getElem?_set_ne {α : Type} (l : List α) (i j : ℕ) (a : α)
    (h : i ≠ j) : (l.set i a)[j]? = l[j]? := by
  induction l generalizing i j with
  | nil => simp
  | cons b t ih =>
      cases i with
      | zero =>
          cases j with
          | zero => exact absurd rfl h
          | succ j => simp
      | succ i =>
          cases j with
          | zero => simp
          | succ j => simpa using ih i j (fun he => h (by omega))

/-- Setting index `i` to a pair that keeps the old first component leaves
the list of first components unchanged. -/
theorem map_fst_set (l : List (ℚ × ℚ)) (i : ℕ) (x : ℚ) :
    (l.set i ((l.getD i (0, 0)).1, x)).map Prod.fst = l.map Prod.fst := by
  induction l generalizing i with
  | nil => simp
  | cons a t ih =>
      cases i with
      | zero => simp [List.getD]
      | succ i => simpa [List.getD] using ih i

/-! ## Walker structural lemmas -/

theorem walkAux_append (s : ℕ → ℚ → Option ℚ) (l1 l2 : List Lecture) :
    ∀ (k : ℕ) (st : WalkState),
      walkAux s (l1 ++ l2) k st = walkAux s l2 (k + l1.length) (walkAux s l1 k st) := by
  induction l1 with
  | nil => intro k st; simp [walkAux]
  | cons a t ih =>
      intro k st
      show walkAux s (t ++ l2) (k + 1) (walkStep s k a st) =
        walkAux s l2 (k + (t.length + 1)) (walkAux s t (k + 1) (walkStep s k a st))
      rw [show k + (t.length + 1) = (k + 1) + t.length from by omega, ih]

/-- The walker never revises the first component of an entry: one step
appends exactly one start (the found timestamp or the fallback cursor). -/
theorem walkStep_map_fst (s : ℕ → ℚ → Option ℚ) (i : ℕ) (lec : Lecture)
    (st : WalkState) :
    (walkStep s i lec st).timestamps.map Prod.fst =
      st.timestamps.map Prod.fst ++
        [(match s i st.lastEnd with | none => st.lastEnd | some t => t)] := by
  simp only [walkStep]
  cases hs : s i st.lastEnd <;>
    · simp only [hs]
      split
      · rw [List.map_append, map_fst_set]
        simp
      · simp

theorem walkAux_map_fst (s : ℕ → ℚ → Option ℚ) :
    ∀ (rest : List Lecture) (k : ℕ) (st : WalkState),
      ∃ l : List ℚ, (walkAux s rest k st).timestamps.map Prod.fst =
        st.timestamps.map Prod.fst ++ l := by
  intro rest
  induction rest with
  | nil => intro k st; exact ⟨[], by simp [walkAux]⟩
  | cons a t ih =>
      intro k st
      have hx := walkStep_map_fst s k a st
      obtain ⟨l, hl⟩ := ih (k + 1) (walkStep s k a st)
      refine ⟨(match s k st.lastEnd with | none => st.lastEnd | some v => v) :: l, ?_⟩
      rw [walkAux, hl, hx]
      simp

theorem walkAux_found_append (s : ℕ → ℚ → Option ℚ) :
    ∀ (rest : List Lecture) (k : ℕ) (st : WalkState),
      ∃ l : List Bool, (walkAux s rest k st).found = st.found ++ l := by
  intro rest
  induction rest with
  | nil => intro k st; exact ⟨[], by simp [walkAux]⟩
  | cons a t ih =>
      intro k st
      obtain ⟨l, hl⟩ := ih (k + 1) (walkStep s k a st)
      refine ⟨(match s k st.lastEnd with | none => false | some _ => true) :: l, ?_⟩
      rw [walkAux, hl]
      cases hs : s k st.lastEnd <;> simp [walkStep, hs]

theorem walkAux_timestamps_length (s : ℕ → ℚ → Option ℚ) :
    ∀ (rest : List Lecture) (k : ℕ) (st : WalkState),
      (walkAux s rest k st).timestamps.length = st.timestamps.length + rest.length := by
  intro rest
  induction rest with
  | nil => intro k st; simp [walkAux]
  | cons a t ih =>
      intro k st
      rw [walkAux, ih]
      simp only [walkStep]
      split <;> simp <;> omega

theorem walkAux_found_length (s : ℕ → ℚ → Option ℚ) :
    ∀ (rest : List Lecture) (k : ℕ) (st : WalkState),
      (walkAux s rest k st).found.length = st.found.length + rest.length := by
  intro rest
  induction rest with
  | nil => intro k st; simp [walkAux]
  | cons a t ih =>
      intro k st
      rw [walkAux, ih]
      simp [walkStep]
      omega

/-! ## Scan-loop lemmas -/

/-- The returned timestamp counts only successfully processed frames:
`scanLoop` starting at counter `n` returns `searchStart + (n + k)/rate`
where `k` is the number of error-free, non-matching frames before the
match. -/
theorem scanLoop_timestamp_eq (s r : ℚ) (target : String) :
    ∀ (events : List ScanEvent) (n : ℕ),
      (scanLoop s r target events n).timestamp =
        (processedCountToMatch target events).map fun k => s + ((n + k : ℕ) : ℚ) / r := by
  intro events
  induction events with
  | nil => intro n; rfl
  | cons e rest ih =>
      intro n
      cases e with
      | interrupt => rfl
      | frame f =>
          cases f with
          | err =>
              have h1 : scanLoop s r target (ScanEvent.frame FrameResult.err :: rest) n =
                  scanLoop s r target rest n := rfl
              have h2 : processedCountToMatch target
                    (ScanEvent.frame FrameResult.err :: rest) =
                  processedCountToMatch target rest := rfl
              rw [h1, h2, ih n]
          | ok text =>
              have e1 : scanLoop s r target
                    (ScanEvent.frame (FrameResult.ok text) :: rest) n =
                  if strContains (pyLower text) (pyLower target) then
                    ⟨some (s + (n : ℚ) / r), true⟩
                  else scanLoop s r target rest (n + 1) := rfl
              have e2 : processedCountToMatch target
                    (ScanEvent.frame (FrameResult.ok text) :: rest) =
                  if strContains (pyLower text) (pyLower target) then some 0
                  else (processedCountToMatch target rest).map (· + 1) := rfl
              by_cases hm : strContains (pyLower text) (pyLower target) = true
              · rw [e1, e2, if_pos hm, if_pos hm]
                simp
              · rw [e1, e2, if_neg hm, if_neg hm, ih (n + 1)]
                cases processedCountToMatch target rest with
                | none => rfl
                | some k =>
                    simp only [Option.map_some']
                    congr 1
                    push_cast
                    ring

/-- A stream of frames none of which matches never produces a timestamp:
the scan exhausts it without terminating the decoder. -/
theorem scanLoop_all_nomatch (s r : ℚ) (target : String) :
    ∀ (frames : List FrameResult) (n : ℕ),
      (∀ f ∈ frames, frameMatches target f = false) →
      scanLoop s r target (frames.map ScanEvent.frame) n = ⟨none, false⟩ := by
  intro frames
  induction frames with
  | nil => intro n _; rfl
  | cons f rest ih =>
      intro n h
      have hrest : ∀ g ∈ rest, frameMatches target g = false :=
        fun g hg => h g (List.mem_cons_of_mem f hg)
      cases f with
      | err => exact ih n hrest
      | ok text =>
          have hm : ¬ strContains (pyLower text) (pyLower target) = true := by
            have hf := h (FrameResult.ok text) (List.mem_cons_self _ _)
            simp only [frameMatches] at hf
            simp [hf]
          rw [show scanLoop s r target
                ((FrameResult.ok text :: rest).map ScanEvent.frame) n =
              if strContains (pyLower text) (pyLower target) then
                ⟨some (s + (n : ℚ) / r), true⟩
              else scanLoop s r target (rest.map ScanEvent.frame) (n + 1) from rfl,
            if_neg hm]
          exact ih (n + 1) hrest

/-! ## Claim C2 — SearchWindow construction -/

/-- Claim C2, counterexample: at `center = 30`, requested window width
`120`, the resolved window is `start = 0`, `end = start + search_duration
= 150` — so the scanned span is `150`, **not** the requested `120`: the
"total scanned duration is preserved exactly" part of the claim is false
(the span is requested `+` lost, never requested itself, whenever the
clamp fires). -/
theorem searchWindow_span_cex :
    (searchWindow 30 120).1 = 0 ∧
    (searchWindow 30 120).1 + (searchWindow 30 120).2 = 150 ∧
    (searchWindow 30 120).2 ≠ 120 := by
  simp only [searchWindow]
  norm_num

/-- Claim C2, amended: `startSeconds` is always clamped to `0`
(`max 0 (center − width/2)`), and when the naive start is negative the
lost span is added **on top of the unchanged `-t` duration**: the scanned
span equals `width + max 0 (width/2 − center)` — at least the requested
width, and strictly more (by the lost span) whenever the clamp fires; in
particular `center = 30`, width `120` resolves to `start = 0`,
`end = 150`. -/
theorem searchWindow_resolution :
    (∀ c d : ℚ,
      (searchWindow c d).1 = max 0 (c - d / 2) ∧
      (searchWindow c d).2 = d + max 0 (d / 2 - c) ∧
      d ≤ (searchWindow c d).2) ∧
    searchWindow 30 120 = (0, 150) := by
  constructor
  · intro c d
    by_cases hneg : c - d / 2 < 0
    case pos =>
      have hmax2 : max (0 : ℚ) (d / 2 - c) = d / 2 - c := max_eq_right (by linarith)
      have hcond : (max (0 : ℚ) (c - d / 2) = 0 ∧ c - d / 2 < 0) :=
        ⟨max_eq_left (le_of_lt hneg), hneg⟩
      refine ⟨rfl, ?_, ?_⟩
      · show (if max (0 : ℚ) (c - d / 2) = 0 ∧ c - d / 2 < 0
            then d + |c - d / 2| else d) = d + max 0 (d / 2 - c)
        rw [if_pos hcond, abs_of_neg hneg, hmax2]
        ring
      · show d ≤ (if max (0 : ℚ) (c - d / 2) = 0 ∧ c - d / 2 < 0
            then d + |c - d / 2| else d)
        rw [if_pos hcond, abs_of_neg hneg]
        linarith
    case neg =>
      push_neg at hneg
      have hmax2 : max (0 : ℚ) (d / 2 - c) = 0 := max_eq_left (by linarith)
      have hcond : ¬ (max (0 : ℚ) (c - d / 2) = 0 ∧ c - d / 2 < 0) := by
        rintro ⟨-, hlt⟩
        exact absurd hlt (not_lt.mpr hneg)
      refine ⟨rfl, ?_, ?_⟩
      · show (if max (0 : ℚ) (c - d / 2) = 0 ∧ c - d / 2 < 0
            then d + |c - d / 2| else d) = d + max 0 (d / 2 - c)
        rw [if_neg hcond, hmax2]
        ring
      · show d ≤ (if max (0 : ℚ) (c - d / 2) = 0 ∧ c - d / 2 < 0
            then d + |c - d / 2| else d)
        rw [if_neg hcond]
  · simp only [searchWindow]
    norm_num

/-! ## Claim C4 — frame timestamp attribution -/

/-- Claim C4, counterexample: window start `0`, sampling rate `1` Hz; the
first decoded frame raises in OCR (logged, skipped), the second decoded
frame — sequence index 1 in the decoded stream — matches.  The claimed
timestamp `windowStart + 1/rate = 1` differs from the returned one:
`frame_num` was not advanced for the errored frame, so the match is
attributed `frame_num = 0`, i.e. timestamp `0`. -/
theorem frame_timestamp_cex :
    scanLoop 0 1 "title" [ScanEvent.frame FrameResult.err,
        ScanEvent.frame (FrameResult.ok "my title here")] 0 =
      ⟨some 0, true⟩ ∧
    (0 : ℚ) ≠ 0 + (1 : ℚ) / 1 := by
  have h : strContains (pyLower "my title here") (pyLower "title") = true := by decide
  constructor
  · simp only [scanLoop, h, if_pos]
    norm_num
  · norm_num

/-- Claim C4, amended: the timestamp attributed to a frame — and returned
on first match — is `windowStart + frame_num/rate` where `frame_num` is
the number of *successfully processed* earlier frames in the window, not
the frame's sequence index in the decoded stream: per-frame recognition
errors are skipped with processing continuing, but they do **not**
advance `frame_num`, so after `e` earlier errors the attributed timestamp
sits `e/rate` seconds before the frame's true position. -/
theorem frame_timestamp_processed_count :
    (∀ (s r : ℚ) (target : String) (events : List ScanEvent),
      (scanLoop s r target events 0).timestamp =
        (processedCountToMatch target events).map fun k => s + (k : ℚ) / r) ∧
    (∀ (s r : ℚ) (target : String) (rest : List ScanEvent) (n : ℕ),
      scanLoop s r target (ScanEvent.frame FrameResult.err :: rest) n =
        scanLoop s r target rest n) := by
  constructor
  · intro s r target events
    rw [scanLoop_timestamp_eq s r target events 0]
    cases processedCountToMatch target events with
    | none => rfl
    | some k => simp
  · intro s r target rest n
    rfl

/-! ## Claim C5 — user interruption -/

/-- Lecture list used by the C5 counterexample. -/
def c5lectures : List Lecture := [⟨"Video", "A", 10⟩, ⟨"Video", "B", 5⟩]

/-- Claim C5, counterexample: an interrupt arriving during scanning yields
`⟨none, true⟩` — the decoder is terminated, but the returned timestamp is
the very same `none` an ordinary exhausted (not-found) scan returns, not a
distinguished "aborted" outcome; and a `none` result lets the schedule
walk continue: a two-lecture walk whose searches all return `none` still
processes both lectures (`found = [false, false]`) instead of cancelling
the run. -/
theorem interrupt_not_distinguished_cex :
    scanLoop 0 1 "x" [ScanEvent.interrupt] 0 = ⟨none, true⟩ ∧
    scanLoop 0 1 "x" [] 0 = ⟨none, false⟩ ∧
    (scanLoop 0 1 "x" [ScanEvent.interrupt] 0).timestamp =
      (scanLoop 0 1 "x" [] 0).timestamp ∧
    (findLectureTimestamps (fun _ _ => none) c5lectures).found = [false, false] := by
    refine ⟨rfl, rfl, rfl, ?_⟩
    simp [findLectureTimestamps, walkAux, walkStep, walkInit, c5lectures]

/-- Claim C5, amended: a user interruption during scanning does terminate
and await the decode subprocess, but it is caught *inside* the search,
which then falls through to the ordinary "text not found" return; the
walker consequently processes every remaining lecture (one found-flag per
lecture, regardless of the oracle).  Only interruptions raised outside the
scanning loop reach the top-level handler that exits non-zero. -/
theorem interrupt_swallowed :
    (∀ (s r : ℚ) (t : String) (rest : List ScanEvent) (n : ℕ),
      scanLoop s r t (ScanEvent.interrupt :: rest) n = ⟨none, true⟩) ∧
    (∀ (search : ℕ → ℚ → Option ℚ) (lectures : List Lecture),
      (findLectureTimestamps search lectures).found.length = lectures.length) := by
  constructor
  · intro s r t rest n
    rfl
  · intro search lectures
    simpa [walkInit] using walkAux_found_length search lectures 0 walkInit

/-! ## Claim C6 — last chapter's end -/

/-- Claim C6 names real code behaviour that the code itself documents
(`chapter_manager.py:41`: "For last chapter, end at video duration") but
does not implement: with one chapter (own end `20000` ms) and a probed
container duration of `300` s, the exported last END is `20000`, not
`300 · 1000`; and when the duration probe failed (`None`), the last
chapter evaluates `int(None * 1000)` and raises `TypeError` — the
branches of the `if video_duration is None` test are inverted. -/
theorem last_chapter_end_bug :
    exportChapters [⟨"t", true, some 10, some 20000⟩] (some 300) =
      some [(10000, 20000, "t")] ∧
    (20000 : ℤ) ≠ 300 * 1000 ∧
    exportChapters [⟨"t", true, some 10, some 20000⟩] none = none := by
  refine ⟨?_, by norm_num, ?_⟩
  · simp only [exportChapters, List.filter, List.enum, List.enumFrom, List.map,
      seqOptions, chapterRecord]
    norm_num
    constructor
    · exact pyInt_eq_intCast (by norm_num)
    constructor
    · exact pyInt_eq_intCast (by norm_num)
    · decide
  · simp [exportChapters, List.filter, List.enum, List.enumFrom, seqOptions,
      chapterRecord]

/-! ## Claim C10 — manual timestamp is a local update -/

/-- Claim C10: an accepted manual `HH:MM:SS` timestamp for not-found
lecture `i` rewrites exactly entry `i` to
`(t, t + duration·60)` with `t = h·3600 + m·60 + s` and marks exactly
lecture `i` found; every other entry and flag — in particular the
previous entry's end — is untouched: the walker's retroactive correction
is never applied to manually supplied starts. -/
theorem manual_timestamp_local :
    ∀ (ts : List (ℚ × ℚ)) (fnd : List Bool) (dur : ℚ) (i : ℕ) (h m s : ℚ),
      i < ts.length → i < fnd.length →
      ((applyManualTimestamp ts fnd dur i h m s).1)[i]? =
        some (h * 3600 + m * 60 + s, h * 3600 + m * 60 + s + dur * 60) ∧
      ((applyManualTimestamp ts fnd dur i h m s).2)[i]? = some true ∧
      ∀ j, j ≠ i →
        ((applyManualTimestamp ts fnd dur i h m s).1)[j]? = ts[j]? ∧
        ((applyManualTimestamp ts fnd dur i h m s).2)[j]? = fnd[j]? := by
  intro ts fnd dur i h m s hts hfnd
  refine ⟨getElem?_set_self ts i _ hts, getElem?_set_self fnd i _ hfnd, ?_⟩
  intro j hj
  exact ⟨getElem?_set_ne ts i j _ (fun he => hj he.symm),
    getElem?_set_ne fnd i j _ (fun he => hj he.symm)⟩

/-- Witness for `manual_timestamp_local`: with table
`[(0,600),(600,950)]`, flags `[true,false]`, duration 5 min, a manual
`00:00:665` for lecture 1 sets entry 1 to `(665, 965)` and leaves entry 0
(and in particular its end `600`) unchanged. -/
theorem manual_timestamp_local_witness :
    ((applyManualTimestamp [(0, 600), (600, 950)] [true, false] 5 1 0 0 665).1)[1]? =
      some ((0 : ℚ) * 3600 + 0 * 60 + 665, (0 : ℚ) * 3600 + 0 * 60 + 665 + 5 * 60) ∧
    ((applyManualTimestamp [(0, 600), (600, 950)] [true, false] 5 1 0 0 665).1)[0]? =
      some ((0 : ℚ), 600) ∧
    ((applyManualTimestamp [(0, 600), (600, 950)] [true, false] 5 1 0 0 665).2)[1]? =
      some true := by
  have h := manual_timestamp_local [(0, 600), (600, 950)] [true, false] 5 1 0 0 665
    (by norm_num) (by norm_num)
  exact ⟨h.1, ((h.2.2 0 (by norm_num)).1).trans rfl, h.2.1⟩

/-! ## Claim C3 — a search miss falls back and never aborts -/

/-- Oracle and lectures for the C3 witness: every search misses. -/
def c3search : ℕ → ℚ → Option ℚ := fun _ _ => none

/-- Two-lecture schedule for the C3 witness. -/
def c3lectures : List Lecture := [⟨"Video", "A", 10⟩, ⟨"Video", "B", 5⟩]

/-- Claim C3: whenever Boundary Search returns no match for lecture `i`,
the walker's entry `i` starts at the value of `last_end_time` at
invocation time (the cursor reached before lecture `i`), the lecture is
marked `found = false`, and the run still produces one entry per lecture:
a miss never aborts the walk. -/
theorem search_miss_fallback :
    ∀ (search : ℕ → ℚ → Option ℚ) (lectures : List Lecture) (i : ℕ),
      i < lectures.length →
      search i ((walkAux search (lectures.take i) 0 walkInit).lastEnd) = none →
      (findLectureTimestamps search lectures).timestamps.length = lectures.length ∧
      ((findLectureTimestamps search lectures).timestamps.map Prod.fst)[i]? =
        some ((walkAux search (lectures.take i) 0 walkInit).lastEnd) ∧
      (findLectureTimestamps search lectures).found[i]? = some false := by
  intro search lectures i hi hmiss
  have hlen : (findLectureTimestamps search lectures).timestamps.length =
      lectures.length := by
    simpa [walkInit] using
      walkAux_timestamps_length search lectures 0 walkInit
  have hsplit : lectures = lectures.take i ++ lectures.drop i :=
    (List.take_append_drop i lectures).symm
  have htlen : (lectures.take i).length = i := by
    simp [List.length_take, Nat.min_eq_left (le_of_lt hi)]
  have hdrop : lectures.drop i = lectures[i] :: lectures.drop (i + 1) :=
    List.drop_eq_getElem_cons hi
  set pre := walkAux search (lectures.take i) 0 walkInit with hpre
  have hrun : findLectureTimestamps search lectures =
      walkAux search (lectures.drop (i + 1)) (i + 1)
        (walkStep search i lectures[i] pre) := by
    conv_lhs => rw [findLectureTimestamps, hsplit]
    rw [walkAux_append, htlen, Nat.zero_add, hdrop]
    rfl
  refine ⟨hlen, ?_, ?_⟩
  · have hprelen : pre.timestamps.length = i := by
      simpa [walkInit, htlen] using
        walkAux_timestamps_length search (lectures.take i) 0 walkInit
    have hstepfst : (walkStep search i lectures[i] pre).timestamps.map Prod.fst =
        pre.timestamps.map Prod.fst ++ [pre.lastEnd] := by
      rw [walkStep_map_fst, hmiss]
    obtain ⟨l, hl⟩ := walkAux_map_fst search (lectures.drop (i + 1)) (i + 1)
      (walkStep search i lectures[i] pre)
    rw [hrun, hl, hstepfst, List.getElem?_append,
      if_pos (show i < (pre.timestamps.map Prod.fst ++ [pre.lastEnd]).length by
        simp [hprelen]),
      show i = (pre.timestamps.map Prod.fst).length by simp [hprelen],
      List.getElem?_concat_length]
  · have hpreflen : pre.found.length = i := by
      simpa [walkInit, htlen] using
        walkAux_found_length search (lectures.take i) 0 walkInit
    have hstepfnd : (walkStep search i lectures[i] pre).found =
        pre.found ++ [false] := by
      simp only [walkStep, hmiss]
    obtain ⟨l, hl⟩ := walkAux_found_append search (lectures.drop (i + 1)) (i + 1)
      (walkStep search i lectures[i] pre)
    rw [hrun, hl, hstepfnd, List.getElem?_append,
      if_pos (show i < (pre.found ++ [false]).length by simp [hpreflen]),
      show i = pre.found.length from hpreflen.symm,
      List.getElem?_concat_length]

/-- Witness for `search_miss_fallback`: the all-miss oracle on the
two-lecture schedule — lecture 1 misses, its entry starts at the cursor
reached after lecture 0 and is flagged not found, and both entries exist. -/
theorem search_miss_fallback_witness :
    (findLectureTimestamps c3search c3lectures).timestamps.length =
      c3lectures.length ∧
    ((findLectureTimestamps c3search c3lectures).timestamps.map Prod.fst)[1]? =
      some ((walkAux c3search (c3lectures.take 1) 0 walkInit).lastEnd) ∧
    (findLectureTimestamps c3search c3lectures).found[1]? = some false :=
  search_miss_fallback c3search c3lectures 1 (by decide) rfl

/-! ## Claim C8 — crop validation and normalization dimensions -/

theorem pyInt_eq_floor (q : ℚ) (h : 0 ≤ q) : pyInt q = ⌊q⌋ := by
  rw [pyInt, Rat.floor_def, Int.tdiv_eq_ediv (Rat.num_nonneg.mpr h)
    (Int.natCast_nonneg q.den)]

/-- Claim C8, counterexample: the crop rectangle `(1,1,9,9)` satisfies
every percentage-level constraint the claim lists (`l<r`, `t<b`, all in
`[0,100]`) and passes the only validation the code performs — yet on a
`10×10` frame both resolved pixel bounds are `int(10·1/100) = 0` and
`int(10·9/100) = 0`, so the crop is pixel-degenerate and normalization
raises (inside the per-frame `try`, not up front): "never throws" and
"rejected before any frames are processed" are both false. -/
theorem crop_degenerate_cex :
    validCropArea 1 1 9 9 = true ∧
    preprocessDims 10 10 (some (1, 1, 9, 9)) = none := by
  constructor
  · decide
  · have h1 : pyInt (((10 : ℕ) : ℚ) * 1 / 100) = 0 := by
      rw [pyInt_eq_floor _ (by norm_num)]; norm_num
    have h9 : pyInt (((10 : ℕ) : ℚ) * 9 / 100) = 0 := by
      rw [pyInt_eq_floor _ (by norm_num)]; norm_num
    simp only [preprocessDims, h1, h9]
    norm_num

/-- Claim C8, amended: for a crop rectangle passing the percentage-level
validation (the only fail-fast check the code performs), normalization
throws exactly when a resolved pixel dimension
`⌊W·r/100⌋ − ⌊W·l/100⌋` or `⌊H·b/100⌋ − ⌊H·t/100⌋` is non-positive —
possible for valid percentages on small frames, in which case the error
is raised per frame and swallowed by the scan loop, not rejected up
front; when both are positive the output dimensions are exactly twice
the floor-resolved crop box. -/
theorem preprocess_dims_of_pos :
    ∀ (W H : ℕ) (l t r b : ℚ),
      validCropArea l t r b = true →
      ((preprocessDims W H (some (l, t, r, b)) = none ↔
        ⌊(W : ℚ) * r / 100⌋ - ⌊(W : ℚ) * l / 100⌋ ≤ 0 ∨
        ⌊(H : ℚ) * b / 100⌋ - ⌊(H : ℚ) * t / 100⌋ ≤ 0) ∧
      (0 < ⌊(W : ℚ) * r / 100⌋ - ⌊(W : ℚ) * l / 100⌋ →
       0 < ⌊(H : ℚ) * b / 100⌋ - ⌊(H : ℚ) * t / 100⌋ →
       preprocessDims W H (some (l, t, r, b)) =
         some (2 * (⌊(W : ℚ) * r / 100⌋ - ⌊(W : ℚ) * l / 100⌋).toNat,
               2 * (⌊(H : ℚ) * b / 100⌋ - ⌊(H : ℚ) * t / 100⌋).toNat))) := by
  intro W H l t r b hv
  simp only [validCropArea, Bool.and_eq_true, decide_eq_true_eq] at hv
  obtain ⟨⟨⟨⟨⟨⟨⟨⟨⟨h0l, -⟩, h0t⟩, -⟩, h0r⟩, -⟩, h0b⟩, -⟩, -⟩, -⟩ := hv
  have el : pyInt ((W : ℚ) * l / 100) = ⌊(W : ℚ) * l / 100⌋ :=
    pyInt_eq_floor _ (div_nonneg (mul_nonneg (Nat.cast_nonneg W) h0l) (by norm_num))
  have er : pyInt ((W : ℚ) * r / 100) = ⌊(W : ℚ) * r / 100⌋ :=
    pyInt_eq_floor _ (div_nonneg (mul_nonneg (Nat.cast_nonneg W) h0r) (by norm_num))
  have et : pyInt ((H : ℚ) * t / 100) = ⌊(H : ℚ) * t / 100⌋ :=
    pyInt_eq_floor _ (div_nonneg (mul_nonneg (Nat.cast_nonneg H) h0t) (by norm_num))
  have eb : pyInt ((H : ℚ) * b / 100) = ⌊(H : ℚ) * b / 100⌋ :=
    pyInt_eq_floor _ (div_nonneg (mul_nonneg (Nat.cast_nonneg H) h0b) (by norm_num))
  simp only [preprocessDims, el, er, et, eb]
  by_cases hc : ⌊(W : ℚ) * r / 100⌋ - ⌊(W : ℚ) * l / 100⌋ ≤ 0 ∨
      ⌊(H : ℚ) * b / 100⌋ - ⌊(H : ℚ) * t / 100⌋ ≤ 0
  · rw [if_pos hc]
    refine ⟨iff_of_true rfl hc, ?_⟩
    intro hw hh
    rcases hc with hc | hc <;> linarith
  · rw [if_neg hc]
    exact ⟨iff_of_false (by simp) hc, fun _ _ => rfl⟩

/-- Witness for `preprocess_dims_of_pos`: the crop `(0,0,50,50)` on a
`100×100` frame passes validation, resolves to the pixel box
`50×50`, and normalization outputs a `100×100` image. -/
theorem preprocess_dims_of_pos_witness :
    preprocessDims 100 100 (some (0, 0, 50, 50)) = some (100, 100) := by
  have h := (preprocess_dims_of_pos 100 100 0 0 50 50 (by decide)).2
    (by norm_num) (by norm_num)
  rw [h]
  norm_num
  decide

/-! ## Claim C9 — the final PNG before end-of-stream is never examined -/

theorem hasPrefixList_self_append {α : Type} [DecidableEq α] (l rest : List α) :
    hasPrefixList l (l ++ rest) = true := by
  induction l with
  | nil => rfl
  | cons a t ih => simp [hasPrefixList, ih]

theorem findSub_self_prefix {α : Type} [DecidableEq α] (needle rest : List α)
    (h : needle ≠ []) : findSub needle (needle ++ rest) = some 0 := by
  cases needle with
  | nil => exact absurd rfl h
  | cons a t =>
      have hp := hasPrefixList_self_append (a :: t) rest
      rw [List.cons_append] at hp
      simp [findSub, hp]

theorem extractFramesAux_eq_cons (fuel : ℕ) (data : List ℕ) (s k : ℕ)
    (hs : findSub pngSignature data = some s)
    (hk : findSub pngSignature (data.drop (s + 8)) = some k) :
    extractFramesAux (fuel + 1) data =
      (data.drop s).take (s + 8 + k - s) ::
        extractFramesAux fuel (data.drop (s + 8 + k)) := by
  simp only [extractFramesAux, hs, hk]

theorem extractFramesAux_eq_nil (fuel : ℕ) (data : List ℕ) (s : ℕ)
    (hs : findSub pngSignature data = some s)
    (hk : findSub pngSignature (data.drop (s + 8)) = none) :
    extractFramesAux (fuel + 1) data = [] := by
  simp only [extractFramesAux, hs, hk]

theorem extractFramesAux_eq_stop (fuel : ℕ) (data : List ℕ)
    (hs : findSub pngSignature data = none) :
    extractFramesAux (fuel + 1) data = [] := by
  simp only [extractFramesAux, hs]

theorem extractFramesAux_nil : ∀ fuel : ℕ, extractFramesAux fuel [] = [] := by
  intro fuel
  cases fuel with
  | zero => rfl
  | succ m => rfl

/-- The fuel bound is irrelevant once it covers `data.length`: every pass
consumes at least 8 bytes, so any two sufficient fuels parse identically. -/
theorem extractFramesAux_congr : ∀ (f1 f2 : ℕ) (data : List ℕ),
    data.length ≤ f1 → data.length ≤ f2 →
    extractFramesAux f1 data = extractFramesAux f2 data := by
  intro f1
  induction f1 with
  | zero =>
      intro f2 data h1 h2
      have hnil : data = [] := List.length_eq_zero.mp (Nat.le_zero.mp h1)
      subst hnil
      rw [extractFramesAux_nil, extractFramesAux_nil]
  | succ m ih =>
      intro f2 data h1 h2
      cases f2 with
      | zero =>
          have hnil : data = [] := List.length_eq_zero.mp (Nat.le_zero.mp h2)
          subst hnil
          rw [extractFramesAux_nil, extractFramesAux_nil]
      | succ m2 =>
          cases hs : findSub pngSignature data with
          | none =>
              rw [extractFramesAux_eq_stop m data hs, extractFramesAux_eq_stop m2 data hs]
          | some s =>
              cases hk : findSub pngSignature (data.drop (s + 8)) with
              | none =>
                  rw [extractFramesAux_eq_nil m data s hs hk,
                    extractFramesAux_eq_nil m2 data s hs hk]
              | some k =>
                  rw [extractFramesAux_eq_cons m data s k hs hk,
                    extractFramesAux_eq_cons m2 data s k hs hk]
                  congr 1
                  apply ih m2 (data.drop (s + 8 + k))
                  · rw [List.length_drop]
                    omega
                  · rw [List.length_drop]
                    omega

/-- The decoder's output: a concatenation of PNG images, each beginning
with the signature (spec §6: images are demarcated by their magic byte
signature); `bodies` are the per-image payloads after the signature. -/
def pngStream : List (List ℕ) → List ℕ
  | [] => []
  | b :: bs => pngSignature ++ (b ++ pngStream bs)

/-- One parsing pass over a stream that starts with a complete image whose
next signature sits exactly at the start of the remaining stream: the
image is emitted and parsing continues on the remainder. -/
theorem extractFrames_cons_step (b tail : List ℕ)
    (hnext : findSub pngSignature (b ++ tail) = some b.length) :
    extractFrames (pngSignature ++ (b ++ tail)) =
      (pngSignature ++ b) :: extractFramesAux (b.length + tail.length + 7) tail := by
  set data := pngSignature ++ (b ++ tail) with hdata
  have hassoc : data = (pngSignature ++ b) ++ tail := by
    rw [hdata, List.append_assoc]
  have hlen : data.length = b.length + tail.length + 8 := by
    rw [hdata]
    simp only [List.length_append, pngSignature, List.length_cons, List.length_nil]
    omega
  have hfs1 : findSub pngSignature data = some 0 := by
    rw [hdata]
    exact findSub_self_prefix pngSignature _ (by simp [pngSignature])
  have hdrop8 : data.drop (0 + 8) = b ++ tail := by
    rw [hdata, show (0 + 8) = pngSignature.length from rfl, List.drop_left]
  have htake : (data.drop 0).take (0 + 8 + b.length - 0) = pngSignature ++ b := by
    rw [List.drop_zero, show 0 + 8 + b.length - 0 = (pngSignature ++ b).length from
      by simp [pngSignature]; omega, hassoc, List.take_left]
  have hdropn : data.drop (0 + 8 + b.length) = tail := by
    rw [show 0 + 8 + b.length = (pngSignature ++ b).length from
      by simp [pngSignature]; omega, hassoc, List.drop_left]
  have hsucc : data.length = (b.length + tail.length + 7) + 1 := by omega
  rw [extractFrames, hsucc,
    extractFramesAux_eq_cons _ _ 0 b.length hfs1 (by rw [hdrop8]; exact hnext),
    htake, hdropn]

/-- For **any** number of images: a signature-delimited stream parses to
exactly the images before the last one — the final PNG before
end-of-stream is always discarded unexamined.  The hypotheses say the
signature occurrences are exactly the image boundaries: after each
payload the next signature found is the start of the following image,
and the last payload holds no signature. -/
theorem extractFrames_pngStream :
    ∀ (bodies : List (List ℕ)),
      (∀ i, i + 1 < bodies.length →
        findSub pngSignature (bodies.getD i [] ++ pngStream (bodies.drop (i + 1))) =
          some (bodies.getD i []).length) →
      (∀ bN, bodies.getLast? = some bN → findSub pngSignature bN = none) →
      extractFrames (pngStream bodies) =
        bodies.dropLast.map (fun b => pngSignature ++ b) := by
  intro bodies
  induction bodies with
  | nil => intro hb hlast; rfl
  | cons b bs ih =>
      intro hb hlast
      cases bs with
      | nil =>
          have hlast1 : findSub pngSignature b = none := hlast b (by simp)
          have hempty : findSub pngSignature (b ++ pngStream ([] : List (List ℕ))) =
              none := by
            show findSub pngSignature (b ++ []) = none
            rwa [List.append_nil]
          have hfs1 : findSub pngSignature (pngStream [b]) = some 0 := by
            show findSub pngSignature (pngSignature ++ (b ++ pngStream [])) = some 0
            exact findSub_self_prefix pngSignature _ (by simp [pngSignature])
          have hdrop8 : (pngStream [b]).drop (0 + 8) = b ++ pngStream [] := by
            show (pngSignature ++ (b ++ pngStream [])).drop (0 + 8) = _
            rw [show (0 + 8) = pngSignature.length from rfl, List.drop_left]
          have hsucc : (pngStream [b]).length = (b.length + 7) + 1 := by
            show (pngSignature ++ (b ++ pngStream [])).length = _
            simp only [pngStream, List.length_append, pngSignature, List.length_cons,
              List.length_nil]
            omega
          rw [extractFrames, hsucc,
            extractFramesAux_eq_nil _ _ 0 hfs1 (by rw [hdrop8]; exact hempty)]
          rfl
      | cons b2 rest =>
          have hb0 : findSub pngSignature (b ++ pngStream (b2 :: rest)) =
              some b.length :=
            hb 0 (by simp only [List.length_cons]; omega)
          rw [show pngStream (b :: b2 :: rest) =
              pngSignature ++ (b ++ pngStream (b2 :: rest)) from rfl,
            extractFrames_cons_step b (pngStream (b2 :: rest)) hb0]
          have htail : extractFramesAux
              (b.length + (pngStream (b2 :: rest)).length + 7) (pngStream (b2 :: rest)) =
              extractFrames (pngStream (b2 :: rest)) := by
            rw [extractFrames]
            exact extractFramesAux_congr _ _ _ (by omega) (by omega)
          have hb2 : ∀ i, i + 1 < (b2 :: rest).length →
              findSub pngSignature ((b2 :: rest).getD i [] ++
                pngStream ((b2 :: rest).drop (i + 1))) =
                some ((b2 :: rest).getD i []).length := fun i hi =>
            hb (i + 1) (by simp only [List.length_cons] at hi ⊢; omega)
          have hlast2 : ∀ bN, (b2 :: rest).getLast? = some bN →
              findSub pngSignature bN = none := fun bN h =>
            hlast bN (by rwa [List.getLast?_cons_cons])
          rw [htail, ih hb2 hlast2]
          rfl

/-- Claim C9: for any number of sampled frames, the incremental
PNG-stream parser only emits an image after locating the *next*
signature, so the final PNG before end-of-stream is always discarded
unexamined; consequently, for any window in which the target text is
recognized only in the last sampled frame (none of the emitted frames
matches, no assumption on the last), the search returns not-found. -/
theorem last_frame_discarded :
    ∀ (bodies : List (List ℕ)) (ocr : List ℕ → FrameResult) (target : String)
      (s r : ℚ),
      (∀ i, i + 1 < bodies.length →
        findSub pngSignature (bodies.getD i [] ++ pngStream (bodies.drop (i + 1))) =
          some (bodies.getD i []).length) →
      (∀ bN, bodies.getLast? = some bN → findSub pngSignature bN = none) →
      (∀ b ∈ bodies.dropLast, frameMatches target (ocr (pngSignature ++ b)) = false) →
      extractFrames (pngStream bodies) =
        bodies.dropLast.map (fun b => pngSignature ++ b) ∧
      findTextInStream s r target ocr (pngStream bodies) = none := by
  intro bodies ocr target s r hb hlast hnomatch
  have hext := extractFrames_pngStream bodies hb hlast
  refine ⟨hext, ?_⟩
  rw [findTextInStream, hext]
  have hmap : (bodies.dropLast.map (fun b => pngSignature ++ b)).map
      (fun png => ScanEvent.frame (ocr png)) =
      (bodies.dropLast.map (fun b => ocr (pngSignature ++ b))).map ScanEvent.frame := by
    simp only [List.map_map]
    rfl
  have hno : ∀ g ∈ bodies.dropLast.map (fun b => ocr (pngSignature ++ b)),
      frameMatches target g = false := by
    intro g hg
    rcases List.mem_map.mp hg with ⟨bb, hbb, rfl⟩
    exact hnomatch bb hbb
  rw [hmap, scanLoop_all_nomatch s r target _ 0 hno]

/-- OCR oracle for the C9 witness: recognizes the target text in the
*third* (final) PNG of the stream only. -/
def c9ocr : List ℕ → FrameResult := fun png =>
  if png = pngSignature ++ [3] then FrameResult.ok "my title" else FrameResult.ok "junk"

/-- Witness for `last_frame_discarded`: a three-PNG stream whose only
matching frame is the last one — the parser emits the first two images
only and the search returns not-found. -/
theorem last_frame_discarded_witness :
    extractFrames (pngStream [[1], [2], [3]]) =
      ([[1], [2], [3]] : List (List ℕ)).dropLast.map (fun b => pngSignature ++ b) ∧
    findTextInStream 0 1 "title" c9ocr (pngStream [[1], [2], [3]]) = none :=
  last_frame_discarded [[1], [2], [3]] c9ocr "title" 0 1
    (by
      intro i hi
      simp only [List.length_cons, List.length_nil] at hi
      rcases i with _ | _ | i3
      · decide
      · decide
      · exact absurd hi (by omega))
    (by
      intro bN h
      simp at h
      subst h
      decide)
    (by
      intro bb hbb
      rw [show ([[1], [2], [3]] : List (List ℕ)).dropLast = [[1], [2]] from rfl] at hbb
      simp only [List.mem_cons, List.not_mem_nil, or_false] at hbb
      rcases hbb with rfl | rfl
      · decide
      · decide)

/-! ## Claim C1 — retroactive correction of the previous entry's end -/

theorem getD_set_fst (ts : List (ℚ × ℚ)) (i j : ℕ) (a : ℚ) :
    ((ts.set i ((ts.getD i (0, 0)).1, a)).getD j (0, 0)).1 = (ts.getD j (0, 0)).1 := by
  induction ts generalizing i j with
  | nil => simp
  | cons p t ih =>
      cases i with
      | zero =>
          cases j with
          | zero => simp [List.getD]
          | succ j => simp [List.getD]
      | succ i =>
          cases j with
          | zero => simp [List.getD]
          | succ j => simpa [List.getD] using ih i j

/-- Appending a fresh entry `(a, e)` while overwriting the previous last
entry's end with `a` preserves the adjacency links
`entry j end = entry (j+1) start`. -/
theorem linked_append_correct (ts : List (ℚ × ℚ)) (a e : ℚ)
    (hlink : ∀ j, j + 1 < ts.length →
      (ts.getD j (0, 0)).2 = (ts.getD (j + 1) (0, 0)).1) :
    ∀ j, j + 1 < (ts.set (ts.length - 1) ((ts.getD (ts.length - 1) (0, 0)).1, a) ++
        [(a, e)]).length →
      ((ts.set (ts.length - 1) ((ts.getD (ts.length - 1) (0, 0)).1, a) ++
        [(a, e)]).getD j (0, 0)).2 =
      ((ts.set (ts.length - 1) ((ts.getD (ts.length - 1) (0, 0)).1, a) ++
        [(a, e)]).getD (j + 1) (0, 0)).1 := by
  intro j hj
  set L := ts.set (ts.length - 1) ((ts.getD (ts.length - 1) (0, 0)).1, a) with hL
  have hLlen : L.length = ts.length := by rw [hL, List.length_set]
  have hTlen : (L ++ [(a, e)]).length = ts.length + 1 := by simp [hLlen]
  rw [hTlen] at hj
  rcases Nat.lt_or_ge (j + 1) ts.length with hcase | hcase
  · have hj1 : j < L.length := by omega
    have hj2 : j + 1 < L.length := by omega
    rw [getD_append_left L [(a, e)] j _ hj1, getD_append_left L [(a, e)] (j + 1) _ hj2]
    have e2 : (L.getD (j + 1) (0, 0)).1 = (ts.getD (j + 1) (0, 0)).1 := by
      rw [hL]; exact getD_set_fst ts (ts.length - 1) (j + 1) a
    have e1 : L.getD j (0, 0) = ts.getD j (0, 0) := by
      rw [hL]; exact getD_set_ne ts (ts.length - 1) j _ _ (by omega)
    rw [e1, e2]
    exact hlink j hcase
  · have hm1 : ts.length - 1 = j := by omega
    have hjL : j < L.length := by omega
    rw [getD_append_left L [(a, e)] j _ hjL,
      show j + 1 = L.length from by omega,
      getD_append_length L [(a, e)] (a, e) (0, 0) rfl]
    have hset : L.getD j (0, 0) = ((ts.getD (ts.length - 1) (0, 0)).1, a) := by
      rw [hL, ← hm1]
      exact getD_set_self ts (ts.length - 1) _ _ (by omega)
    rw [hset]

/-- One walker step, under the loop invariant
`lastIdx = timestamps.length − 1`: the previous last entry's end is
overwritten with the new start `a` and the new entry `(a, a + dur·60)` is
appended. -/
theorem walkStep_timestamps (s : ℕ → ℚ → Option ℚ) (k : ℕ) (lec : Lecture)
    (st : WalkState) (hlen : st.timestamps.length = k)
    (hidx : st.lastIdx = (k : ℤ) - 1) :
    ∃ a : ℚ, (walkStep s k lec st).timestamps =
      st.timestamps.set (st.timestamps.length - 1)
        ((st.timestamps.getD (st.timestamps.length - 1) (0, 0)).1, a) ++
        [(a, a + lec.duration * 60)] := by
  refine ⟨(match s k st.lastEnd with | none => st.lastEnd | some v => v), ?_⟩
  simp only [walkStep]
  cases hs : s k st.lastEnd <;> simp only [hs] <;>
    cases k with
    | zero =>
        have hnil : st.timestamps = [] := List.length_eq_zero.mp hlen
        rw [if_neg (by rw [hidx]; norm_num), hnil]
        simp
    | succ m =>
        have hidxm : st.lastIdx = (m : ℤ) := by rw [hidx]; push_cast; ring
        have htn : st.lastIdx.toNat = st.timestamps.length - 1 := by
          rw [hidxm, Int.toNat_natCast]
          omega
        rw [if_pos (by rw [hidxm]; exact Int.natCast_nonneg m), htn]

/-- Adjacency links hold at the end of every walker run started in a
state satisfying the loop invariant. -/
theorem walkAux_linked (s : ℕ → ℚ → Option ℚ) :
    ∀ (rest : List Lecture) (k : ℕ) (st : WalkState),
      st.timestamps.length = k →
      st.lastIdx = (k : ℤ) - 1 →
      (∀ j, j + 1 < st.timestamps.length →
        (st.timestamps.getD j (0, 0)).2 = (st.timestamps.getD (j + 1) (0, 0)).1) →
      ∀ j, j + 1 < (walkAux s rest k st).timestamps.length →
        ((walkAux s rest k st).timestamps.getD j (0, 0)).2 =
          ((walkAux s rest k st).timestamps.getD (j + 1) (0, 0)).1 := by
  intro rest
  induction rest with
  | nil => intro k st hlen hidx hlink; exact hlink
  | cons lec t ih =>
      intro k st hlen hidx hlink
      obtain ⟨a, ha⟩ := walkStep_timestamps s k lec st hlen hidx
      have hlen' : (walkStep s k lec st).timestamps.length = k + 1 := by
        rw [ha]
        simp [List.length_set]
        omega
      have hidx' : (walkStep s k lec st).lastIdx = ((k + 1 : ℕ) : ℤ) - 1 := by
        show (k : ℤ) = ((k + 1 : ℕ) : ℤ) - 1
        push_cast
        ring
      have hlink' : ∀ j, j + 1 < (walkStep s k lec st).timestamps.length →
          ((walkStep s k lec st).timestamps.getD j (0, 0)).2 =
            ((walkStep s k lec st).timestamps.getD (j + 1) (0, 0)).1 := by
        intro j hj
        rw [ha] at hj ⊢
        exact linked_append_correct st.timestamps a (a + lec.duration * 60) hlink j hj
      exact ih (k + 1) (walkStep s k lec st) hlen' hidx' hlink'

/-- For a nonempty schedule, the final entry of a walker run is
`(a, a + 60·duration-of-last-lecture)` for some start `a`: its
duration-based provisional end is never overwritten. -/
theorem walkAux_getLast (s : ℕ → ℚ → Option ℚ) :
    ∀ (lectures : List Lecture) (k : ℕ) (st : WalkState) (lec : Lecture),
      lectures.getLast? = some lec →
      ∃ a : ℚ, (walkAux s lectures k st).timestamps.getLast? =
        some (a, a + lec.duration * 60) := by
  intro lectures
  induction lectures with
  | nil => intro k st lec h; simp at h
  | cons l rest ih =>
      intro k st lec h
      cases rest with
      | nil =>
          have hl : l = lec := by simpa using h
          subst hl
          cases hs : s k st.lastEnd with
          | none =>
              refine ⟨st.lastEnd, ?_⟩
              show (walkStep s k l st).timestamps.getLast? = _
              simp only [walkStep, hs]
              rw [List.getLast?_concat]
          | some v =>
              refine ⟨v, ?_⟩
              show (walkStep s k l st).timestamps.getLast? = _
              simp only [walkStep, hs]
              rw [List.getLast?_concat]
      | cons l2 rest2 =>
          have h' : (l2 :: rest2).getLast? = some lec := by
            rwa [List.getLast?_cons_cons] at h
          exact ih (k + 1) (walkStep s k l st) lec h'

/-- Oracle of the C1 scenario: lecture A's title found at `t = 0`,
lecture B's at `t = 650`. -/
def c1search : ℕ → ℚ → Option ℚ := fun i _ => if i = 0 then some 0 else some 650

/-- Schedule of the C1 scenario: A estimated 10 minutes, B 5 minutes. -/
def c1lectures : List Lecture := [⟨"Video", "A", 10⟩, ⟨"Video", "B", 5⟩]

/-- Claim C1: in the A/B scenario the walker produces
`[(0, 650), (650, 950)]` — A's provisional end `600` was overwritten with
B's discovered start `650`, and B keeps `650 + 5·60`; in general every
entry's end equals the next entry's start (the provisional
`start + duration·60` survives only until the next lecture is processed),
and the final entry's end is never corrected and keeps the duration-based
estimate. -/
theorem retroactive_correction_spec :
    (findLectureTimestamps c1search c1lectures).timestamps = [(0, 650), (650, 950)] ∧
    (∀ (search : ℕ → ℚ → Option ℚ) (lectures : List Lecture) (j : ℕ),
      j + 1 < (findLectureTimestamps search lectures).timestamps.length →
      ((findLectureTimestamps search lectures).timestamps.getD j (0, 0)).2 =
        ((findLectureTimestamps search lectures).timestamps.getD (j + 1) (0, 0)).1) ∧
    (∀ (search : ℕ → ℚ → Option ℚ) (lectures : List Lecture) (lec : Lecture),
      lectures.getLast? = some lec →
      ∃ a : ℚ, (findLectureTimestamps search lectures).timestamps.getLast? =
        some (a, a + lec.duration * 60)) := by
  refine ⟨?_, ?_, ?_⟩
  · simp only [findLectureTimestamps, walkAux, walkStep, walkInit, c1search, c1lectures]
    norm_num
  · intro search lectures j hj
    exact walkAux_linked search lectures 0 walkInit rfl (by norm_num [walkInit])
      (by intro j hj; simp [walkInit] at hj) j hj
  · intro search lectures lec h
    exact walkAux_getLast search lectures 0 walkInit lec h

/-- Witness for `retroactive_correction_spec`: in the concrete A/B run,
entry 0's end equals entry 1's start, and the final entry ends at its
start plus `5·60`. -/
theorem retroactive_correction_spec_witness :
    ((findLectureTimestamps c1search c1lectures).timestamps.getD 0 (0, 0)).2 =
      ((findLectureTimestamps c1search c1lectures).timestamps.getD 1 (0, 0)).1 ∧
    ∃ a : ℚ, (findLectureTimestamps c1search c1lectures).timestamps.getLast? =
      some (a, a + 5 * 60) := by
  obtain ⟨hc, hlink, hlast⟩ := retroactive_correction_spec
  constructor
  · exact hlink c1search c1lectures 0 (by rw [hc]; norm_num)
  · exact hlast c1search c1lectures ⟨"Video", "B", 5⟩ rfl

/-! ## Claim C7 — monotonicity of start timestamps -/

/-- The cursor after one walker step: the lecture's start (found or
fallback) plus its estimated duration in seconds. -/
theorem walkStep_lastEnd (s : ℕ → ℚ → Option ℚ) (i : ℕ) (lec : Lecture)
    (st : WalkState) :
    (walkStep s i lec st).lastEnd =
      (match s i st.lastEnd with | none => st.lastEnd | some v => v) +
        lec.duration * 60 := by
  simp only [walkStep]
  cases hs : s i st.lastEnd <;> simp [hs]

/-- Oracle of the C7 counterexample: A found at `t = 40`, B found at
`t = 10` — both inside the windows the code actually scans. -/
def c7search : ℕ → ℚ → Option ℚ := fun i _ => if i = 0 then some 40 else some 10

/-- Schedule of the C7 counterexample: A has estimated duration 0 minutes
(the duration parser yields 0 for an unparseable cell), B 1 minute. -/
def c7lectures : List Lecture := [⟨"Video", "A", 0⟩, ⟨"Video", "B", 1⟩]

/-- Claim C7, counterexample: with the default 90-second window, lecture A
found at `t = 40` (cursor advances to `40 + 0·60 = 40`) and lecture B
found at `t = 10`, both lectures are found yet the start sequence is
`[40, 10]` — strictly decreasing.  Both found timestamps lie inside the
windows `find_text_in_video` would scan (`[0,135]` centred at 0 and
`[0,95]` centred at 40), so the sequential construction alone does *not*
maintain the ordering; the not-found case is not the exception — a found
timestamp earlier than the previous start is. -/
theorem monotonicity_cex :
    (findLectureTimestamps c7search c7lectures).timestamps.map Prod.fst = [40, 10] ∧
    (findLectureTimestamps c7search c7lectures).found = [true, true] ∧
    ¬ List.Chain' (· ≤ ·)
      ((findLectureTimestamps c7search c7lectures).timestamps.map Prod.fst) ∧
    ((searchWindow 0 90).1 ≤ 40 ∧ 40 ≤ (searchWindow 0 90).1 + (searchWindow 0 90).2) ∧
    ((searchWindow 40 90).1 ≤ 10 ∧ 10 ≤ (searchWindow 40 90).1 + (searchWindow 40 90).2) := by
  have hstarts : (findLectureTimestamps c7search c7lectures).timestamps.map Prod.fst =
      [40, 10] := by
    simp only [findLectureTimestamps, walkAux, walkStep, walkInit, c7search, c7lectures]
    norm_num
  refine ⟨hstarts, ?_, ?_, ?_, ?_⟩
  · simp only [findLectureTimestamps, walkAux, walkStep, walkInit, c7search, c7lectures]
    norm_num
  · rw [hstarts]
    intro hch
    have := List.chain'_cons.mp hch
    norm_num at this
  · constructor <;> · simp only [searchWindow]; norm_num
  · constructor <;> · simp only [searchWindow]; norm_num

/-- Monotonicity invariant carried through the walker: if every found
timestamp reaches back no further than `60·(previous lecture's duration)`
before its search center, the accumulated starts stay sorted. -/
theorem walkAux_chain (search : ℕ → ℚ → Option ℚ) (lectures : List Lecture)
    (hdur : ∀ lec ∈ lectures, 0 ≤ lec.duration)
    (hsearch : ∀ i c t, 1 ≤ i → search i c = some t →
      c - (lectures.getD (i - 1) ⟨"", "", 0⟩).duration * 60 ≤ t) :
    ∀ (rest : List Lecture) (k : ℕ) (st : WalkState),
      rest = lectures.drop k →
      List.Chain' (· ≤ ·) (st.timestamps.map Prod.fst) →
      (k = 0 → st.timestamps = [] ∧ st.lastEnd = 0) →
      (1 ≤ k → ∃ a, (st.timestamps.map Prod.fst).getLast? = some a ∧
        st.lastEnd = a + (lectures.getD (k - 1) ⟨"", "", 0⟩).duration * 60) →
      List.Chain' (· ≤ ·) ((walkAux search rest k st).timestamps.map Prod.fst) := by
  have hdurD : ∀ j : ℕ, 0 ≤ (lectures.getD j ⟨"", "", 0⟩).duration := by
    intro j
    by_cases hj : j < lectures.length
    · rw [List.getD_eq_getElem?_getD, List.getElem?_eq_getElem hj, Option.getD_some]
      exact hdur _ (List.getElem_mem hj)
    · rw [List.getD_eq_getElem?_getD, List.getElem?_eq_none (by omega), Option.getD_none]
  intro rest
  induction rest with
  | nil => intro k st hrest hchain h0 h1; exact hchain
  | cons lec t ih =>
      intro k st hrest hchain h0 h1
      have hlec : lectures[k]? = some lec := by
        have h := List.getElem?_drop lectures k 0
        rw [← hrest] at h
        simpa using h.symm
      have hgetD : lectures.getD k ⟨"", "", 0⟩ = lec := by
        rw [List.getD_eq_getElem?_getD, hlec, Option.getD_some]
      have ht : t = lectures.drop (k + 1) := by
        have h := congrArg List.tail hrest
        simpa [List.tail_drop] using h
      have hstep := walkStep_map_fst search k lec st
      have hlastEndStep := walkStep_lastEnd search k lec st
      set a' := (match search k st.lastEnd with | none => st.lastEnd | some v => v)
        with ha'
      have hchain' : List.Chain' (· ≤ ·)
          ((walkStep search k lec st).timestamps.map Prod.fst) := by
        rw [hstep, List.chain'_append]
        refine ⟨hchain, List.chain'_singleton a', ?_⟩
        intro x hx y hy
        simp only [List.head?_cons, Option.mem_def, Option.some.injEq] at hy
        subst hy
        cases k with
        | zero =>
            rcases h0 rfl with ⟨hnil, -⟩
            rw [hnil] at hx
            simp at hx
        | succ m =>
            obtain ⟨b, hb, hlastEnd⟩ := h1 (by omega)
            rw [hb] at hx
            simp only [Option.mem_def, Option.some.injEq] at hx
            subst hx
            have hdm : 0 ≤ (lectures.getD (m + 1 - 1) ⟨"", "", 0⟩).duration := hdurD _
            cases hs : search (m + 1) st.lastEnd with
            | none =>
                rw [ha', hs]
                show b ≤ st.lastEnd
                rw [hlastEnd]
                have h60 : 0 ≤ (lectures.getD (m + 1 - 1) ⟨"", "", 0⟩).duration * 60 :=
                  mul_nonneg hdm (by norm_num)
                linarith
            | some v =>
                rw [ha', hs]
                show b ≤ v
                have hv := hsearch (m + 1) st.lastEnd v (by omega) hs
                rw [hlastEnd] at hv
                linarith
      have h0' : k + 1 = 0 → (walkStep search k lec st).timestamps = [] ∧
          (walkStep search k lec st).lastEnd = 0 :=
        fun h => absurd h (by omega)
      have h1' : 1 ≤ k + 1 → ∃ a,
          ((walkStep search k lec st).timestamps.map Prod.fst).getLast? = some a ∧
          (walkStep search k lec st).lastEnd =
            a + (lectures.getD (k + 1 - 1) ⟨"", "", 0⟩).duration * 60 := by
        intro _
        refine ⟨a', ?_, ?_⟩
        · rw [hstep, List.getLast?_concat]
        · rw [hlastEndStep, Nat.add_sub_cancel, hgetD]
      exact ih (k + 1) (walkStep search k lec st) ht hchain' h0' h1'

/-- Claim C7, amended: the walker's start timestamps are monotonically
non-decreasing provided every found timestamp is no more than
`60·(previous lecture's estimated duration)` seconds before its search
center (always true when the half window does not reach back past the
previous start, e.g. `windowWidth/2 ≤ 60·duration` for positive
durations); misses always preserve the ordering — the estimate-reuse case
is not an exception but the safe case.  Without that bound a found
lecture can start before its predecessor (see the counterexample). -/
theorem starts_monotone_of_window_bound :
    ∀ (search : ℕ → ℚ → Option ℚ) (lectures : List Lecture),
      (∀ lec ∈ lectures, 0 ≤ lec.duration) →
      (∀ i c t, 1 ≤ i → search i c = some t →
        c - (lectures.getD (i - 1) ⟨"", "", 0⟩).duration * 60 ≤ t) →
      List.Chain' (· ≤ ·)
        ((findLectureTimestamps search lectures).timestamps.map Prod.fst) := by
  intro search lectures hdur hsearch
  exact walkAux_chain search lectures hdur hsearch lectures 0 walkInit
    (List.drop_zero lectures).symm (by simp [walkInit])
    (fun _ => ⟨rfl, rfl⟩) (fun h => absurd h (by omega))

/-- Schedule for the `starts_monotone_of_window_bound` witness. -/
def c7wlectures : List Lecture := [⟨"Video", "A", 10⟩, ⟨"Video", "B", 5⟩]

/-- Witness for `starts_monotone_of_window_bound`: an oracle that always
finds one second after the search center satisfies the window bound, and
the resulting starts are sorted. -/
theorem starts_monotone_of_window_bound_witness :
    List.Chain' (· ≤ ·)
      ((findLectureTimestamps (fun _ c => some (c + 1))
        c7wlectures).timestamps.map Prod.fst) := by
  apply starts_monotone_of_window_bound (fun _ c => some (c + 1)) c7wlectures
  · intro lec hm
    simp only [c7wlectures, List.mem_cons, List.not_mem_nil, or_false] at hm
    rcases hm with rfl | rfl
    · show (0 : ℚ) ≤ 10
      norm_num
    · show (0 : ℚ) ≤ 5
      norm_num
  · intro i c t hi hst
    have ht : t = c + 1 := (Option.some.inj hst).symm
    subst ht
    have hd : 0 ≤ (c7wlectures.getD (i - 1) ⟨"", "", 0⟩).duration := by
      rcases hidx : i - 1 with _ | m
      · show (0 : ℚ) ≤ 10
        norm_num
      · rcases m with _ | m2
        · show (0 : ℚ) ≤ 5
          norm_num
        · show (0 : ℚ) ≤ (0 : ℚ)
          norm_num
    have h60 : 0 ≤ (c7wlectures.getD (i - 1) ⟨"", "", 0⟩).duration * 60 :=
      mul_nonneg hd (by norm_num)
    linarith

end LectureStamper
